import Mathlib

/-!
Verification of the JSON parser (`src/main.rs`).

The cursor `Input<char>` is modelled as a structure holding `location` and the
character sequence; every Rust method that mutates `self` becomes a Lean
function returning the result together with the updated cursor.  The
`Iterator::next` recursion (which in Rust recurses through array/object
elements and loops over separators) is modelled with an explicit fuel
parameter; `outOfFuel` marks fuel exhaustion and is distinct from both a
genuine parse failure (`ok none`) and a panic (`panicked`), so theorems at a
concrete fuel cannot mistake one outcome for another.
-/

/-- Cursor over the character sequence (`struct Input<T>` with `T = char`). -/
structure Input where
  location : Nat
  input : List Char
deriving DecidableEq

/-- `char::is_ascii_digit`: `'0' <= c && c <= '9'`. -/
def isAsciiDigit (c : Char) : Bool := 48 ≤ c.toNat && c.toNat ≤ 57

/-- `char::is_ascii`: code point at most 0x7F. -/
def isAsciiChar (c : Char) : Bool := c.toNat ≤ 127

/-- `char::is_ascii_alphanumeric`: ASCII digit, uppercase or lowercase letter. -/
def isAsciiAlphanumeric (c : Char) : Bool :=
  (48 ≤ c.toNat && c.toNat ≤ 57) || (65 ≤ c.toNat && c.toNat ≤ 90) ||
    (97 ≤ c.toNat && c.toNat ≤ 122)

/-- `char::is_ascii_whitespace`: space, tab, newline, form feed, carriage return. -/
def isAsciiWhitespace (c : Char) : Bool :=
  c == ' ' || c == '\t' || c == '\n' || c == '\x0c' || c == '\r'

/-- Length of the maximal leading run of characters satisfying `p`; this is the
distance the index travels in the `while idx < len && p(input[idx])` loop of
`parse_while`, measured on the suffix starting at the current location. -/
def scanWhile (p : Char → Bool) : List Char → Nat
  | [] => 0
  | c :: cs => if p c then scanWhile p cs + 1 else 0

/-- `Input::parse_char`: consume one character equal to `c`, else no change. -/
def parse_char (st : Input) (c : Char) : Bool × Input :=
  if st.location + 1 > st.input.length then (false, st)
  else if st.input.get? st.location = some c then
    (true, { st with location := st.location + 1 })
  else (false, st)

/-- `Input::parse_str`: the Rust code uses `s.len()`, the UTF-8 byte length
of `s`, both for the bounds check and for how far the slice and the advance
reach, while the slice indexes whole characters of the input; this is modelled
with `String.utf8ByteSize` (for the ASCII literals this program passes, byte
length and character count coincide). -/
def parse_str (st : Input) (s : String) : Bool × Input :=
  if st.location + s.utf8ByteSize > st.input.length then (false, st)
  else if String.mk ((st.input.drop st.location).take s.utf8ByteSize) = s then
    (true, { st with location := st.location + s.utf8ByteSize })
  else (false, st)

/-- `Input::parse_while`: consume the maximal nonempty run satisfying `p` and
return it collected into a string; on an empty run, no change and `none`. -/
def parse_while (st : Input) (p : Char → Bool) : Option String × Input :=
  let n := scanWhile p (st.input.drop st.location)
  if n = 0 then (none, st)
  else (some (String.mk ((st.input.drop st.location).take n)),
        { st with location := st.location + n })

/-- `Input::parse_whitespace`: skip a possibly empty run of ASCII whitespace. -/
def parse_whitespace (st : Input) : Input :=
  { st with location := st.location + scanWhile isAsciiWhitespace (st.input.drop st.location) }

/-- The value tree (`enum JsonValue`).  `JsonObject`'s `HashMap` is modelled as
an association list in first-insertion order, with `insertKey` reproducing
`HashMap::insert`'s overwrite semantics. -/
inductive JsonValue where
  | JsonNull : JsonValue
  | JsonBool : Bool → JsonValue
  | JsonNumber : Nat → JsonValue
  | JsonString : String → JsonValue
  | JsonArray : List JsonValue → JsonValue
  | JsonObject : List (String × JsonValue) → JsonValue

/-- `HashMap::insert`: bind `k` to `x`, overwriting any earlier binding of `k`
and keeping first-insertion order for the remaining keys. -/
def insertKey (m : List (String × JsonValue)) (k : String) (x : JsonValue) :
    List (String × JsonValue) :=
  match m with
  | [] => [(k, x)]
  | (k', x') :: rest => if k' = k then (k, x) :: rest else (k', x') :: insertKey rest k x

/-- Decimal value of a digit string, as computed by `usize::from_str` when no
step overflows. -/
def decimalValue (l : List Char) : Nat :=
  l.foldl (fun acc c => acc * 10 + (c.toNat - 48)) 0

/-- `usize::MAX` on a 64-bit target. -/
def USIZE_MAX : Nat := 18446744073709551615

/-- `str::parse::<usize>` (`usize::from_str`) on a 64-bit target: fails on an
empty string, on a non-digit character, and when the value exceeds
`usize::MAX`; otherwise returns the decimal value. -/
def parseUsize (s : String) : Option Nat :=
  if s.data.isEmpty then none
  else if s.data.all isAsciiDigit then
    if decimalValue s.data ≤ USIZE_MAX then some (decimalValue s.data) else none
  else none

/-- Outcome of one `next` call: `ok res st` is a normal return (`res = none`
is Rust's `None`), `panicked` is an `unwrap` panic, `outOfFuel` only marks
exhaustion of the artificial fuel bound. -/
inductive PResult where
  | ok : Option JsonValue → Input → PResult
  | panicked : PResult
  | outOfFuel : PResult

/-- The three parsing procedures bundled: "parse one value", the array
element loop and the object entry loop.  The Rust functions are mutually
recursive; here each recursive call goes through the bundle one fuel level
down (`parseTriple`), which makes the recursion a plain `Nat.rec` on fuel. -/
def ParserKit : Type :=
  (Input → PResult) × (Input → List JsonValue → PResult) ×
    (Input → List (String × JsonValue) → PResult)

/-- One level of the parser.  First component: the body of
`<Input<char> as Iterator>::next`, trying the alternatives exactly in the
source order (the literals `null`/`true`/`false`, a digit run, a string, an
array, an object).  Second component: the `while !self.parse_char(']')` loop
of the array branch with the accumulated elements, entered after `[` and the
following whitespace.  Third component: the `while !self.parse_char('}')`
loop of the object branch with the accumulated mapping.  `ih` performs the
recursive calls. -/
def parseStep (ih : ParserKit) : ParserKit :=
  (fun st =>
    match parse_str st "null" with
    | (true, st) => .ok (some .JsonNull) st
    | (false, st) =>
      match parse_str st "true" with
      | (true, st) => .ok (some (.JsonBool true)) st
      | (false, st) =>
        match parse_str st "false" with
        | (true, st) => .ok (some (.JsonBool false)) st
        | (false, st) =>
          match parse_while st isAsciiDigit with
          | (some s, st) =>
            match parseUsize s with
            | some n => .ok (some (.JsonNumber n)) st
            | none => .panicked
          | (none, st) =>
            match parse_char st '"' with
            | (true, st) =>
              match parse_while st (fun c => isAsciiChar c && c != '"') with
              | (some s, st) =>
                match parse_char st '"' with
                | (true, st) => .ok (some (.JsonString s)) st
                | (false, st) => .ok none st
              | (none, st) => .ok none st
            | (false, st) =>
              match parse_char st '[' with
              | (true, st) => ih.2.1 (parse_whitespace st) []
              | (false, st) =>
                match parse_char st '\x7b' with
                | (true, st) => ih.2.2 (parse_whitespace st) []
                | (false, st) => .ok none st,
   fun st v =>
    match parse_char st ']' with
    | (true, st) => .ok (some (.JsonArray v)) st
    | (false, st) =>
      match ih.1 st with
      | .ok (some x) st =>
        match parse_char (parse_whitespace st) ']' with
        | (true, st) => .ok (some (.JsonArray (v ++ [x]))) st
        | (false, st) =>
          match parse_char st ',' with
          | (true, st) => ih.2.1 (parse_whitespace st) (v ++ [x])
          | (false, st) => .ok none st
      | .ok none st => .ok none st
      | .panicked => .panicked
      | .outOfFuel => .outOfFuel,
   fun st m =>
    match parse_char st '\x7d' with
    | (true, st) => .ok (some (.JsonObject m)) st
    | (false, st) =>
      match parse_char st '"' with
      | (true, st) =>
        match parse_while st (fun c => isAsciiAlphanumeric c && c != '"') with
        | (some k, st) =>
          match parse_char st '"' with
          | (true, st) =>
            match parse_char (parse_whitespace st) ':' with
            | (true, st) =>
              match ih.1 (parse_whitespace st) with
              | .ok (some x) st =>
                match parse_char (parse_whitespace st) '\x7d' with
                | (true, st) => .ok (some (.JsonObject (insertKey m k x))) st
                | (false, st) =>
                  match parse_char st ',' with
                  | (true, st) => ih.2.2 (parse_whitespace st) (insertKey m k x)
                  | (false, st) => .ok none st
              | .ok none st => .ok none st
              | .panicked => .panicked
              | .outOfFuel => .outOfFuel
            | (false, st) => .ok none st
          | (false, st) => .ok none st
        | (none, st) => .ok none st
      | (false, st) => .ok none st)

/-- `fuel` levels of the parser. -/
def parseTriple : Nat → ParserKit :=
  Nat.rec (fun _ => .outOfFuel, fun _ _ => .outOfFuel, fun _ _ => .outOfFuel)
    (fun _ ih => parseStep ih)

/-- `<Input<char> as Iterator>::next`: parse one value at the current
position. -/
def next (fuel : Nat) (st : Input) : PResult := (parseTriple fuel).1 st

/-- The array element loop of `next`, with the accumulated elements `v`. -/
def arrayLoop (fuel : Nat) (st : Input) (v : List JsonValue) : PResult :=
  (parseTriple fuel).2.1 st v

/-- The object entry loop of `next`, with the accumulated mapping `m`. -/
def objectLoop (fuel : Nat) (st : Input) (m : List (String × JsonValue)) : PResult :=
  (parseTriple fuel).2.2 st m

/-- The driver of `main`: repeatedly call `next` and collect the produced
values, stopping at the first call that does not produce one.  `steps` bounds
the number of iterations (the Rust `for` loop is unbounded); `fuel` is passed
to every `next` call. -/
def drive (fuel : Nat) (steps : Nat) (st : Input) : List JsonValue :=
  match steps with
  | 0 => []
  | steps + 1 =>
    match next fuel st with
    | .ok (some v) st' => v :: drive fuel steps st'
    | _ => []

/-- The end-to-end input of the repository's `test_full` test (braces written
with hexadecimal escapes). -/
def testFullInput : String :=
  "\x7b\"key1\": \x7b\"key1\": \"value\", \"key2\": [1, 2, 3]\x7d, \"key2\": [5, 4, 3, 2, \x7b\"key1\": 0\x7d]\x7d"

/-- One parsing step relates a cursor to any cursor reachable from it: the
character sequence is untouched, the position never moves backwards, and it
never moves past the end of the input (`max` covers cursors that already start
past the end, which reachable cursors never do). -/
def Steps (st st' : Input) : Prop :=
  st'.input = st.input ∧ st.location ≤ st'.location ∧
    st'.location ≤ max st.location st.input.length

theorem Steps.refl (st : Input) : Steps st st :=
  ⟨rfl, Nat.le_refl _, Nat.le_max_left _ _⟩

theorem Steps.trans {a b c : Input} (h1 : Steps a b) (h2 : Steps b c) : Steps a c := by
  obtain ⟨i1, l1, u1⟩ := h1
  obtain ⟨i2, l2, u2⟩ := h2
  refine ⟨i2.trans i1, l1.trans l2, ?_⟩
  rw [i1] at u2
  omega

theorem next_zero (st : Input) : next 0 st = .outOfFuel := rfl

theorem arrayLoop_zero (st : Input) (v : List JsonValue) : arrayLoop 0 st v = .outOfFuel := rfl

theorem objectLoop_zero (st : Input) (m : List (String × JsonValue)) :
    objectLoop 0 st m = .outOfFuel := rfl

theorem next_succ (fuel : Nat) :
    next (fuel + 1) = (parseStep (next fuel, arrayLoop fuel, objectLoop fuel)).1 := rfl

theorem arrayLoop_succ (fuel : Nat) :
    arrayLoop (fuel + 1) = (parseStep (next fuel, arrayLoop fuel, objectLoop fuel)).2.1 := rfl

theorem objectLoop_succ (fuel : Nat) :
    objectLoop (fuel + 1) = (parseStep (next fuel, arrayLoop fuel, objectLoop fuel)).2.2 := rfl

theorem parse_char_spec (st : Input) (c : Char) :
    parse_char st c =
      if st.input.get? st.location = some c then
        (true, ⟨st.location + 1, st.input⟩) else (false, st) := by
  unfold parse_char
  rcases Nat.lt_or_ge st.input.length (st.location + 1) with h | h
  · rw [if_pos h, List.get?_eq_none.mpr (by omega), if_neg (by simp)]
  · rw [if_neg (by omega)]

theorem parse_str_spec (st : Input) (s : String) :
    parse_str st s =
      if st.location + s.utf8ByteSize ≤ st.input.length ∧
          String.mk ((st.input.drop st.location).take s.utf8ByteSize) = s then
        (true, ⟨st.location + s.utf8ByteSize, st.input⟩) else (false, st) := by
  unfold parse_str
  by_cases hg : st.location + s.utf8ByteSize > st.input.length
  · rw [if_pos hg, if_neg (fun hh => by omega)]
  · rw [if_neg hg]
    by_cases he : String.mk ((st.input.drop st.location).take s.utf8ByteSize) = s
    · rw [if_pos he, if_pos ⟨by omega, he⟩]
    · rw [if_neg he, if_neg (fun hh => he hh.2)]

theorem scanWhile_le (p : Char → Bool) (l : List Char) : scanWhile p l ≤ l.length := by
  induction l with
  | nil => simp [scanWhile]
  | cons c cs ih => by_cases h : p c <;> simp [scanWhile, h] <;> omega

theorem take_scanWhile (p : Char → Bool) (l : List Char) :
    l.take (scanWhile p l) = l.takeWhile p := by
  induction l with
  | nil => simp [scanWhile]
  | cons c cs ih => by_cases h : p c <;> simp [scanWhile, h, List.takeWhile_cons, ih]

theorem scanWhile_eq_length_takeWhile (p : Char → Bool) (l : List Char) :
    scanWhile p l = (l.takeWhile p).length := by
  induction l with
  | nil => simp [scanWhile]
  | cons c cs ih => by_cases h : p c <;> simp [scanWhile, h, List.takeWhile_cons, ih]

theorem steps_parse_char (st : Input) (c : Char) : Steps st (parse_char st c).2 := by
  rw [parse_char_spec]
  split
  · rename_i h
    obtain ⟨hlt, -⟩ := List.get?_eq_some.mp h
    exact ⟨rfl, Nat.le_succ _, by simp; omega⟩
  · exact Steps.refl st

theorem steps_parse_str (st : Input) (s : String) : Steps st (parse_str st s).2 := by
  rw [parse_str_spec]
  split
  · rename_i h
    exact ⟨rfl, Nat.le_add_right _ _, by have := h.1; simp; omega⟩
  · exact Steps.refl st

theorem steps_parse_while (st : Input) (p : Char → Bool) : Steps st (parse_while st p).2 := by
  unfold parse_while
  dsimp only
  split
  · exact Steps.refl st
  · have h1 := scanWhile_le p (st.input.drop st.location)
    rw [List.length_drop] at h1
    exact ⟨rfl, Nat.le_add_right _ _, by simp; omega⟩

theorem steps_parse_whitespace (st : Input) : Steps st (parse_whitespace st) := by
  have h1 := scanWhile_le isAsciiWhitespace (st.input.drop st.location)
  rw [List.length_drop] at h1
  exact ⟨rfl, Nat.le_add_right _ _, by simp [parse_whitespace]; omega⟩

theorem steps_of_parse_char {st : Input} {c : Char} {b : Bool} {st1 : Input}
    (h : parse_char st c = (b, st1)) : Steps st st1 := by
  have := steps_parse_char st c
  rwa [h] at this

theorem steps_of_parse_str {st : Input} {s : String} {b : Bool} {st1 : Input}
    (h : parse_str st s = (b, st1)) : Steps st st1 := by
  have := steps_parse_str st s
  rwa [h] at this

theorem steps_of_parse_while {st : Input} {p : Char → Bool} {o : Option String} {st1 : Input}
    (h : parse_while st p = (o, st1)) : Steps st st1 := by
  have := steps_parse_while st p
  rwa [h] at this

/-- Every normal return of `next`, of the array loop and of the object loop
moves the cursor forward without touching the character sequence. -/
theorem steps_all (fuel : Nat) :
    (∀ st r st', next fuel st = .ok r st' → Steps st st')
    ∧ (∀ st v r st', arrayLoop fuel st v = .ok r st' → Steps st st')
    ∧ (∀ st m r st', objectLoop fuel st m = .ok r st' → Steps st st') := by
  induction fuel with
  | zero =>
    refine ⟨?_, ?_, ?_⟩
    · intro st r st' heq
      rw [next_zero] at heq
      exact PResult.noConfusion heq
    · intro st v r st' heq
      rw [arrayLoop_zero] at heq
      exact PResult.noConfusion heq
    · intro st m r st' heq
      rw [objectLoop_zero] at heq
      exact PResult.noConfusion heq
  | succ fuel ih =>
    obtain ⟨ihN, ihA, ihO⟩ := ih
    refine ⟨?_, ?_, ?_⟩
    · intro st r st' heq
      rw [next_succ] at heq
      simp only [parseStep] at heq
      split at heq
      · rename_i st1 h1
        cases heq
        exact steps_of_parse_str h1
      · rename_i st1 h1
        have s1 := steps_of_parse_str h1
        split at heq
        · rename_i st2 h2
          cases heq
          exact s1.trans (steps_of_parse_str h2)
        · rename_i st2 h2
          have s2 := s1.trans (steps_of_parse_str h2)
          split at heq
          · rename_i st3 h3
            cases heq
            exact s2.trans (steps_of_parse_str h3)
          · rename_i st3 h3
            have s3 := s2.trans (steps_of_parse_str h3)
            split at heq
            · rename_i str4 st4 h4
              split at heq
              · rename_i n5 h5
                cases heq
                exact s3.trans (steps_of_parse_while h4)
              · exact PResult.noConfusion heq
            · rename_i st4 h4
              have s4 := s3.trans (steps_of_parse_while h4)
              split at heq
              · rename_i st5 h5
                have s5 := s4.trans (steps_of_parse_char h5)
                split at heq
                · rename_i str6 st6 h6
                  have s6 := s5.trans (steps_of_parse_while h6)
                  split at heq
                  · rename_i st7 h7
                    cases heq
                    exact s6.trans (steps_of_parse_char h7)
                  · rename_i st7 h7
                    cases heq
                    exact s6.trans (steps_of_parse_char h7)
                · rename_i st6 h6
                  cases heq
                  exact s5.trans (steps_of_parse_while h6)
              · rename_i st5 h5
                have s5 := s4.trans (steps_of_parse_char h5)
                split at heq
                · rename_i st6 h6
                  have s6 := s5.trans (steps_of_parse_char h6)
                  exact s6.trans ((steps_parse_whitespace st6).trans (ihA _ _ _ _ heq))
                · rename_i st6 h6
                  have s6 := s5.trans (steps_of_parse_char h6)
                  split at heq
                  · rename_i st7 h7
                    have s7 := s6.trans (steps_of_parse_char h7)
                    exact s7.trans ((steps_parse_whitespace st7).trans (ihO _ _ _ _ heq))
                  · rename_i st7 h7
                    cases heq
                    exact s6.trans (steps_of_parse_char h7)
    · intro st v r st' heq
      rw [arrayLoop_succ] at heq
      simp only [parseStep] at heq
      split at heq
      · rename_i st1 h1
        cases heq
        exact steps_of_parse_char h1
      · rename_i st1 h1
        have s1 := steps_of_parse_char h1
        split at heq
        · rename_i x st2 h2
          have s2 := s1.trans (ihN _ _ _ h2)
          split at heq
          · rename_i st3 h3
            cases heq
            exact s2.trans ((steps_parse_whitespace st2).trans (steps_of_parse_char h3))
          · rename_i st3 h3
            have s3 := s2.trans ((steps_parse_whitespace st2).trans (steps_of_parse_char h3))
            split at heq
            · rename_i st4 h4
              have s4 := s3.trans (steps_of_parse_char h4)
              exact s4.trans ((steps_parse_whitespace st4).trans (ihA _ _ _ _ heq))
            · rename_i st4 h4
              cases heq
              exact s3.trans (steps_of_parse_char h4)
        · rename_i st2 h2
          cases heq
          exact s1.trans (ihN _ _ _ h2)
        · exact PResult.noConfusion heq
        · exact PResult.noConfusion heq
    · intro st m r st' heq
      rw [objectLoop_succ] at heq
      simp only [parseStep] at heq
      split at heq
      · rename_i st1 h1
        cases heq
        exact steps_of_parse_char h1
      · rename_i st1 h1
        have s1 := steps_of_parse_char h1
        split at heq
        · rename_i st2 h2
          have s2 := s1.trans (steps_of_parse_char h2)
          split at heq
          · rename_i k st3 h3
            have s3 := s2.trans (steps_of_parse_while h3)
            split at heq
            · rename_i st4 h4
              have s4 := s3.trans (steps_of_parse_char h4)
              split at heq
              · rename_i st5 h5
                have s5 := s4.trans ((steps_parse_whitespace st4).trans (steps_of_parse_char h5))
                split at heq
                · rename_i x st6 h6
                  have s6 := s5.trans ((steps_parse_whitespace st5).trans (ihN _ _ _ h6))
                  split at heq
                  · rename_i st7 h7
                    cases heq
                    exact s6.trans ((steps_parse_whitespace st6).trans (steps_of_parse_char h7))
                  · rename_i st7 h7
                    have s7 := s6.trans ((steps_parse_whitespace st6).trans (steps_of_parse_char h7))
                    split at heq
                    · rename_i st8 h8
                      have s8 := s7.trans (steps_of_parse_char h8)
                      exact s8.trans ((steps_parse_whitespace st8).trans (ihO _ _ _ _ heq))
                    · rename_i st8 h8
                      cases heq
                      exact s7.trans (steps_of_parse_char h8)
                · rename_i st6 h6
                  cases heq
                  exact s5.trans ((steps_parse_whitespace st5).trans (ihN _ _ _ h6))
                · exact PResult.noConfusion heq
                · exact PResult.noConfusion heq
              · rename_i st5 h5
                cases heq
                exact s4.trans ((steps_parse_whitespace st4).trans (steps_of_parse_char h5))
            · rename_i st4 h4
              cases heq
              exact s3.trans (steps_of_parse_char h4)
          · rename_i st3 h3
            cases heq
            exact s2.trans (steps_of_parse_while h3)
        · rename_i st2 h2
          cases heq
          exact s1.trans (steps_of_parse_char h2)

theorem parse_str_eq_true {st : Input} {s : String} {st1 : Input}
    (h : parse_str st s = (true, st1)) :
    st1 = ⟨st.location + s.utf8ByteSize, st.input⟩ := by
  rw [parse_str_spec] at h
  split at h
  · injection h with _ h2
    exact h2.symm
  · injection h with h1 _
    exact Bool.noConfusion h1

theorem parse_str_eq_false {st : Input} {s : String} {st1 : Input}
    (h : parse_str st s = (false, st1)) : st1 = st := by
  rw [parse_str_spec] at h
  split at h
  · injection h with h1 _
    exact Bool.noConfusion h1
  · injection h with _ h2
    exact h2.symm

theorem parse_char_eq_true {st : Input} {c : Char} {st1 : Input}
    (h : parse_char st c = (true, st1)) :
    st1 = ⟨st.location + 1, st.input⟩ ∧ st.input.get? st.location = some c := by
  rw [parse_char_spec] at h
  split at h
  · rename_i hc
    injection h with _ h2
    exact ⟨h2.symm, hc⟩
  · injection h with h1 _
    exact Bool.noConfusion h1

theorem parse_char_eq_false {st : Input} {c : Char} {st1 : Input}
    (h : parse_char st c = (false, st1)) : st1 = st := by
  rw [parse_char_spec] at h
  split at h
  · injection h with h1 _
    exact Bool.noConfusion h1
  · injection h with _ h2
    exact h2.symm

theorem parse_while_eq_some {st : Input} {p : Char → Bool} {s : String} {st1 : Input}
    (h : parse_while st p = (some s, st1)) : st.location < st1.location := by
  unfold parse_while at h
  dsimp only at h
  split at h
  · injection h with h1 _
    exact Option.noConfusion h1
  · rename_i hn
    injection h with _ h2
    rw [← h2]
    show st.location < st.location + scanWhile p (st.input.drop st.location)
    omega

theorem parse_while_eq_none {st : Input} {p : Char → Bool} {st1 : Input}
    (h : parse_while st p = (none, st1)) : st1 = st := by
  unfold parse_while at h
  dsimp only at h
  split at h
  · injection h with _ h2
    exact h2.symm
  · injection h with h1 _
    exact Option.noConfusion h1

/-- Whenever `next` returns a value, the cursor has strictly advanced. -/
theorem next_some_strict (fuel : Nat) (st : Input) (v : JsonValue) (st' : Input)
    (h : next fuel st = .ok (some v) st') : st.location < st'.location := by
  cases fuel with
  | zero =>
    rw [next_zero] at h
    exact PResult.noConfusion h
  | succ fuel =>
    rw [next_succ] at h
    simp only [parseStep] at h
    split at h
    · rename_i st1 h1
      cases h
      obtain rfl := parse_str_eq_true h1
      show st.location < st.location + ("null" : String).utf8ByteSize
      have hl : ("null" : String).utf8ByteSize = 4 := rfl
      omega
    · rename_i st1 h1
      rw [parse_str_eq_false h1] at h
      split at h
      · rename_i st2 h2
        cases h
        obtain rfl := parse_str_eq_true h2
        show st.location < st.location + ("true" : String).utf8ByteSize
        have hl : ("true" : String).utf8ByteSize = 4 := rfl
        omega
      · rename_i st2 h2
        rw [parse_str_eq_false h2] at h
        split at h
        · rename_i st3 h3
          cases h
          obtain rfl := parse_str_eq_true h3
          show st.location < st.location + ("false" : String).utf8ByteSize
          have hl : ("false" : String).utf8ByteSize = 5 := rfl
          omega
        · rename_i st3 h3
          rw [parse_str_eq_false h3] at h
          split at h
          · rename_i str4 st4 h4
            split at h
            · rename_i n5 h5
              cases h
              exact parse_while_eq_some h4
            · exact PResult.noConfusion h
          · rename_i st4 h4
            rw [parse_while_eq_none h4] at h
            split at h
            · rename_i st5 h5
              have hloc5 : st5.location = st.location + 1 := by
                rw [(parse_char_eq_true h5).1]
              split at h
              · rename_i str6 st6 h6
                have hs6 : st5.location ≤ st6.location := (steps_of_parse_while h6).2.1
                split at h
                · rename_i st7 h7
                  cases h
                  have hloc7 : st'.location = st6.location + 1 := by
                    rw [(parse_char_eq_true h7).1]
                  omega
                · rename_i st7 h7
                  simp at h
              · rename_i st6 h6
                simp at h
            · rename_i st5 h5
              rw [parse_char_eq_false h5] at h
              split at h
              · rename_i st6 h6
                have hloc6 : st6.location = st.location + 1 := by
                  rw [(parse_char_eq_true h6).1]
                have hw : st6.location ≤ (parse_whitespace st6).location :=
                  (steps_parse_whitespace st6).2.1
                have hs : (parse_whitespace st6).location ≤ st'.location :=
                  ((steps_all fuel).2.1 _ _ _ _ h).2.1
                omega
              · rename_i st6 h6
                rw [parse_char_eq_false h6] at h
                split at h
                · rename_i st7 h7
                  have hloc7 : st7.location = st.location + 1 := by
                    rw [(parse_char_eq_true h7).1]
                  have hw : st7.location ≤ (parse_whitespace st7).location :=
                    (steps_parse_whitespace st7).2.1
                  have hs : (parse_whitespace st7).location ≤ st'.location :=
                    ((steps_all fuel).2.2 _ _ _ _ h).2.1
                  omega
                · rename_i st7 h7
                  simp at h

/-- The driver produces at most one value per remaining input character. -/
theorem drive_length_le (fuel : Nat) : ∀ (steps : Nat) (st : Input),
    st.location ≤ st.input.length →
    (drive fuel steps st).length ≤ st.input.length - st.location := by
  intro steps
  induction steps with
  | zero =>
    intro st h
    simp [drive]
  | succ n ih =>
    intro st h
    simp only [drive]
    split
    · rename_i v st' he
      obtain ⟨hi, hl, hu⟩ := (steps_all fuel).1 st (some v) st' he
      have hstrict := next_some_strict fuel st v st' he
      have h2 : st'.location ≤ st.input.length := by
        rw [max_eq_right h] at hu
        exact hu
      have h3 := ih st' (by rw [hi]; exact h2)
      rw [hi] at h3
      simp only [List.length_cons]
      omega
    · simp

/-- A keyword literal whose first character differs from the character under
the cursor never matches. -/
theorem parse_str_head_ne {st : Input} {c : Char} (s : String)
    (hc : st.input.get? st.location = some c) (hbs : s.utf8ByteSize ≠ 0)
    (hne : s.data.head? ≠ some c) : parse_str st s = (false, st) := by
  rw [parse_str_spec]
  apply if_neg
  rintro ⟨hlen, heq⟩
  have hd0 : (st.input.drop st.location).get? 0 = some c := by
    rw [List.get?_drop]
    simpa using hc
  have hdata : s.data = (st.input.drop st.location).take s.utf8ByteSize :=
    (congrArg String.data heq).symm
  cases hd : st.input.drop st.location with
  | nil =>
    rw [hd] at hd0
    simp at hd0
  | cons a tl =>
    rw [hd] at hd0
    simp at hd0
    rw [hd] at hdata
    cases hbn : s.utf8ByteSize with
    | zero => exact hbs hbn
    | succ k =>
      rw [hbn, List.take_succ_cons] at hdata
      apply hne
      rw [hdata, List.head?_cons, hd0]

theorem takeWhile_all (p : Char → Bool) (l : List Char) : (l.takeWhile p).all p = true := by
  induction l with
  | nil => rfl
  | cons a tl ih => by_cases h : p a <;> simp [List.takeWhile_cons, h, ih]

/-- When the character under the cursor is a digit, `parse_while` captures the
maximal digit run. -/
theorem parse_while_digit_run (st : Input) (c : Char) (tl : List Char)
    (hdrop : st.input.drop st.location = c :: tl) (hd : isAsciiDigit c = true) :
    parse_while st isAsciiDigit =
      (some (String.mk ((st.input.drop st.location).takeWhile isAsciiDigit)),
        ⟨st.location + ((st.input.drop st.location).takeWhile isAsciiDigit).length,
          st.input⟩) := by
  unfold parse_while
  dsimp only
  rw [hdrop]
  have hnz : scanWhile isAsciiDigit (c :: tl) = scanWhile isAsciiDigit tl + 1 := by
    simp [scanWhile, hd]
  rw [if_neg (by rw [hnz]; exact Nat.succ_ne_zero _)]
  rw [take_scanWhile, scanWhile_eq_length_takeWhile]

/-- Claim C3 (amended): for every input whose next characters form a nonempty
run of ASCII digits whose decimal value fits in `usize`, `next` takes the
number branch and produces `Number n` with `n` the decimal value of the run,
advancing past the run; runs whose value exceeds `usize::MAX` instead make
the conversion fail and the `unwrap` panic. -/
theorem number_rule_in_range (fuel : Nat) (st : Input) (c : Char)
    (hc : st.input.get? st.location = some c) (hd : isAsciiDigit c = true)
    (hbound : decimalValue ((st.input.drop st.location).takeWhile isAsciiDigit) ≤ USIZE_MAX) :
    next (fuel + 1) st =
      .ok (some (.JsonNumber (decimalValue ((st.input.drop st.location).takeWhile isAsciiDigit))))
        ⟨st.location + ((st.input.drop st.location).takeWhile isAsciiDigit).length,
          st.input⟩ := by
  have hne : ∀ a : Char, isAsciiDigit a = false → (some a : Option Char) ≠ some c := by
    intro a ha hcontra
    rw [Option.some.injEq] at hcontra
    rw [hcontra, hd] at ha
    exact Bool.noConfusion ha
  have h1 : parse_str st "null" = (false, st) :=
    parse_str_head_ne _ hc (by decide) (hne 'n' (by decide))
  have h2 : parse_str st "true" = (false, st) :=
    parse_str_head_ne _ hc (by decide) (hne 't' (by decide))
  have h3 : parse_str st "false" = (false, st) :=
    parse_str_head_ne _ hc (by decide) (hne 'f' (by decide))
  have hd0 : (st.input.drop st.location).get? 0 = some c := by
    rw [List.get?_drop]
    simpa using hc
  obtain ⟨tl, hdrop⟩ : ∃ tl, st.input.drop st.location = c :: tl := by
    cases hdd : st.input.drop st.location with
    | nil =>
      rw [hdd] at hd0
      simp at hd0
    | cons a tl =>
      rw [hdd] at hd0
      simp at hd0
      exact ⟨tl, by rw [hd0]⟩
  have h4 := parse_while_digit_run st c tl hdrop hd
  have hrun : (st.input.drop st.location).takeWhile isAsciiDigit =
      c :: tl.takeWhile isAsciiDigit := by
    rw [hdrop, List.takeWhile_cons, if_pos hd]
  have h5 : parseUsize (String.mk ((st.input.drop st.location).takeWhile isAsciiDigit)) =
      some (decimalValue ((st.input.drop st.location).takeWhile isAsciiDigit)) := by
    unfold parseUsize
    dsimp only
    rw [if_neg (by rw [hrun]; simp), if_pos (by rw [hrun]; simp [hd, takeWhile_all]),
      if_pos hbound]
  rw [next_succ]
  simp only [parseStep, h1, h2, h3, h4, h5]

/-- A character of code point at most 0x7F occupies one UTF-8 byte. -/
theorem utf8Size_of_ascii {c : Char} (h : isAsciiChar c = true) : c.utf8Size = 1 := by
  have h' : c.toNat ≤ 127 := by simpa [isAsciiChar] using h
  unfold Char.utf8Size
  dsimp only
  rw [if_pos]
  rw [UInt32.le_def, BitVec.le_def]
  exact h'

theorem utf8ByteSize_go_ascii (l : List Char) (h : l.all isAsciiChar = true) :
    String.utf8ByteSize.go l = l.length := by
  induction l with
  | nil => rfl
  | cons c cs ih =>
    rw [List.all_cons, Bool.and_eq_true] at h
    show String.utf8ByteSize.go cs + c.utf8Size = cs.length + 1
    rw [ih h.2, utf8Size_of_ascii h.1]

/-- For a string of ASCII characters the UTF-8 byte length that
`Input::parse_str` uses equals the character count. -/
theorem utf8ByteSize_eq_length {s : String} (h : s.data.all isAsciiChar = true) :
    s.utf8ByteSize = s.length := by
  cases s with
  | mk l => exact utf8ByteSize_go_ascii l h

/-- Claim C7 (counterexample): for the literal of the single two-byte
character U+00E9 on an input holding exactly that character, the next
`length(s)` = 1 characters of the input equal `s`, yet `match_literal`
returns `false` with the cursor unchanged: the Rust code checks
`location + s.len() > input.len()` with the byte length 2 against the one
stored character, so the bounds check fails before any comparison. -/
theorem match_literal_nonascii_counterexample :
    String.mk (((['\u00e9'] : List Char).drop 0).take ("\u00e9" : String).length) =
      "\u00e9" ∧
    parse_str ⟨0, ['\u00e9']⟩ "\u00e9" = (false, ⟨0, ['\u00e9']⟩) := ⟨rfl, rfl⟩

/-- Claim C7 (amended): for every cursor state satisfying the invariant and
every literal `s` consisting of ASCII characters only — as every literal this
program passes does, and the only ones for which the byte length `s.len()`
that the code uses equals the character count `length(s)` — `match_literal(s)`
returns `true` and advances the position by `length(s)` if and only if the
next `length(s)` characters of the input equal `s` exactly (case-sensitively);
in every other case, including when only a proper prefix of `s` matches or
fewer than `length(s)` characters remain, it returns `false` and the cursor
state is completely unchanged. -/
theorem match_literal_frame (st : Input) (s : String) (h : st.location ≤ st.input.length)
    (hascii : s.data.all isAsciiChar = true) :
    (String.mk ((st.input.drop st.location).take s.length) = s →
      parse_str st s = (true, ⟨st.location + s.length, st.input⟩))
    ∧ (String.mk ((st.input.drop st.location).take s.length) ≠ s →
      parse_str st s = (false, st)) := by
  have hbl : s.utf8ByteSize = s.length := utf8ByteSize_eq_length hascii
  constructor
  · intro he
    have hlen : ((st.input.drop st.location).take s.length).length = s.length := by
      rw [show (st.input.drop st.location).take s.length = s.data from
        congrArg String.data he]
      rfl
    rw [List.length_take, List.length_drop] at hlen
    rw [parse_str_spec, hbl, if_pos ⟨by omega, he⟩]
  · intro hne
    rw [parse_str_spec, hbl, if_neg (fun hh => hne hh.2)]

theorem match_literal_frame_witness :
    ((⟨0, ['a', 'b']⟩ : Input).location ≤ (⟨0, ['a', 'b']⟩ : Input).input.length ∧
      ("ab" : String).data.all isAsciiChar = true ∧
      ("ax" : String).data.all isAsciiChar = true) ∧
    parse_str ⟨0, ['a', 'b']⟩ "ab" = (true, ⟨2, ['a', 'b']⟩) ∧
    parse_str ⟨0, ['a', 'b']⟩ "ax" = (false, ⟨0, ['a', 'b']⟩) :=
  ⟨⟨by decide, by decide, by decide⟩,
   (match_literal_frame ⟨0, ['a', 'b']⟩ "ab" (by decide) (by decide)).1 (by decide),
   (match_literal_frame ⟨0, ['a', 'b']⟩ "ax" (by decide) (by decide)).2 (by decide)⟩

/-- Claim C8: starting from any cursor satisfying the invariant
`location <= length(input)`, none of the four match primitives and no
invocation of the grammar rule `next` ever decreases the position, none moves
it past the end of the input, and none modifies the input sequence. -/
theorem cursor_invariant (st : Input) (h : st.location ≤ st.input.length) :
    (∀ c, st.location ≤ (parse_char st c).2.location ∧
      (parse_char st c).2.location ≤ st.input.length ∧ (parse_char st c).2.input = st.input)
    ∧ (∀ s, st.location ≤ (parse_str st s).2.location ∧
      (parse_str st s).2.location ≤ st.input.length ∧ (parse_str st s).2.input = st.input)
    ∧ (∀ p, st.location ≤ (parse_while st p).2.location ∧
      (parse_while st p).2.location ≤ st.input.length ∧
      (parse_while st p).2.input = st.input)
    ∧ (st.location ≤ (parse_whitespace st).location ∧
      (parse_whitespace st).location ≤ st.input.length ∧
      (parse_whitespace st).input = st.input)
    ∧ (∀ fuel r st', next fuel st = .ok r st' →
      st.location ≤ st'.location ∧ st'.location ≤ st.input.length ∧
      st'.input = st.input) := by
  have hb : ∀ st1 : Input, Steps st st1 →
      st.location ≤ st1.location ∧ st1.location ≤ st.input.length ∧ st1.input = st.input := by
    rintro st1 ⟨hi, hl, hu⟩
    rw [max_eq_right h] at hu
    exact ⟨hl, hu, hi⟩
  exact ⟨fun c => hb _ (steps_parse_char st c),
    fun s => hb _ (steps_parse_str st s),
    fun p => hb _ (steps_parse_while st p),
    hb _ (steps_parse_whitespace st),
    fun fuel r st' he => hb _ ((steps_all fuel).1 st r st' he)⟩

theorem cursor_invariant_witness :
    (⟨0, ['1']⟩ : Input).location ≤ (⟨0, ['1']⟩ : Input).input.length ∧
    ((∀ c, (0 : Nat) ≤ (parse_char ⟨0, ['1']⟩ c).2.location ∧
      (parse_char ⟨0, ['1']⟩ c).2.location ≤ 1 ∧
      (parse_char ⟨0, ['1']⟩ c).2.input = ['1'])
    ∧ (∀ s, (0 : Nat) ≤ (parse_str ⟨0, ['1']⟩ s).2.location ∧
      (parse_str ⟨0, ['1']⟩ s).2.location ≤ 1 ∧ (parse_str ⟨0, ['1']⟩ s).2.input = ['1'])
    ∧ (∀ p, (0 : Nat) ≤ (parse_while ⟨0, ['1']⟩ p).2.location ∧
      (parse_while ⟨0, ['1']⟩ p).2.location ≤ 1 ∧
      (parse_while ⟨0, ['1']⟩ p).2.input = ['1'])
    ∧ ((0 : Nat) ≤ (parse_whitespace ⟨0, ['1']⟩).location ∧
      (parse_whitespace ⟨0, ['1']⟩).location ≤ 1 ∧
      (parse_whitespace ⟨0, ['1']⟩).input = ['1'])
    ∧ (∀ fuel r st', next fuel ⟨0, ['1']⟩ = .ok r st' →
      (0 : Nat) ≤ st'.location ∧ st'.location ≤ 1 ∧ st'.input = ['1'])) :=
  ⟨by decide, cursor_invariant ⟨0, ['1']⟩ (by decide)⟩

/-- Claim C1 (counterexample): parsing `[1,2,]` does not fail: it produces the
value `Array[Number 1, Number 2]`, consuming all six characters. -/
theorem trailing_comma_array_counterexample :
    next 50 ⟨0, "[1,2,]".toList⟩ =
      .ok (some (.JsonArray [.JsonNumber 1, .JsonNumber 2])) ⟨6, "[1,2,]".toList⟩ := rfl

/-- Claim C1 (amended): parsing `[1,2,]` succeeds: the trailing comma before
`]` is accepted, the driver yields exactly the value
`Array[Number 1, Number 2]`, and the whole input is consumed. -/
theorem trailing_comma_array_accepted :
    drive 50 5 ⟨0, "[1,2,]".toList⟩ = [.JsonArray [.JsonNumber 1, .JsonNumber 2]] ∧
    "[1,2,]".toList.length = 6 ∧
    next 50 ⟨6, "[1,2,]".toList⟩ = .ok none ⟨6, "[1,2,]".toList⟩ := ⟨rfl, rfl, rfl⟩

/-- Claim C2 (counterexample): on `1 2 3` the first parse-one-value yields
`Number 1` with the cursor at position 1, but the second invocation produces
no value (nothing in `next` skips the leading space), so the output sequence
does not contain three values. -/
theorem whitespace_separated_counterexample :
    next 50 ⟨0, "1 2 3".toList⟩ = .ok (some (.JsonNumber 1)) ⟨1, "1 2 3".toList⟩ ∧
    next 50 ⟨1, "1 2 3".toList⟩ = .ok none ⟨1, "1 2 3".toList⟩ := ⟨rfl, rfl⟩

/-- Claim C2 (amended): for the input `1 2 3`, the driver yields exactly one
value, `Number 1`: the second parse attempt fails on the leading space because
top-level parsing never skips whitespace. -/
theorem whitespace_separated_single_value :
    drive 50 5 ⟨0, "1 2 3".toList⟩ = [.JsonNumber 1] := rfl

/-- Claim C3 (counterexample): a run of twenty `9`s is a nonempty ASCII digit
run whose decimal value exceeds `usize::MAX`, so `str::parse::<usize>` fails
and the `unwrap` in the number branch panics. -/
theorem number_overflow_panics :
    next 50 ⟨0, List.replicate 20 '9'⟩ = .panicked := rfl

theorem number_rule_in_range_witness :
    (['7', 'x'].get? 0 = some '7' ∧ isAsciiDigit '7' = true ∧
      decimalValue ((['7', 'x'].drop 0).takeWhile isAsciiDigit) ≤ USIZE_MAX) ∧
    next 6 ⟨0, ['7', 'x']⟩ = .ok (some (.JsonNumber 7)) ⟨1, ['7', 'x']⟩ :=
  ⟨⟨by decide, by decide, by decide⟩,
    number_rule_in_range 5 ⟨0, ['7', 'x']⟩ '7' (by decide) (by decide) (by decide)⟩

set_option maxHeartbeats 1000000 in
/-- Claim C4: the `test_full` input parses to exactly the nested tree of the
repository's test, the cursor ends at the end of the input, and a further
parse attempt produces nothing. -/
theorem end_to_end_nested :
    next 100 ⟨0, testFullInput.toList⟩ =
      .ok (some (.JsonObject
        [("key1", .JsonObject
            [("key1", .JsonString "value"),
             ("key2", .JsonArray [.JsonNumber 1, .JsonNumber 2, .JsonNumber 3])]),
         ("key2", .JsonArray
            [.JsonNumber 5, .JsonNumber 4, .JsonNumber 3, .JsonNumber 2,
             .JsonObject [("key1", .JsonNumber 0)]])]))
        ⟨81, testFullInput.toList⟩ ∧
    testFullInput.toList.length = 81 ∧
    next 100 ⟨81, testFullInput.toList⟩ = .ok none ⟨81, testFullInput.toList⟩ :=
  ⟨rfl, rfl, rfl⟩

/-- Claim C5: the empty string literal, an unterminated string and an
unterminated object all fail to parse: `next` returns `None` (never a value,
never a panic) on each. -/
theorem rejected_inputs_fail :
    next 50 ⟨0, "\"\"".toList⟩ = .ok none ⟨1, "\"\"".toList⟩ ∧
    next 50 ⟨0, "\"abc".toList⟩ = .ok none ⟨4, "\"abc".toList⟩ ∧
    next 50 ⟨0, "\x7b\"a\":1".toList⟩ = .ok none ⟨6, "\x7b\"a\":1".toList⟩ :=
  ⟨rfl, rfl, rfl⟩

/-- Claim C6: an object literal with a duplicate key parses to an Object in
which the key maps to the last occurrence's value only. -/
theorem duplicate_key_last_wins :
    next 50 ⟨0, "\x7b\"k\":1,\"k\":2\x7d".toList⟩ =
      .ok (some (.JsonObject [("k", .JsonNumber 2)]))
        ⟨13, "\x7b\"k\":1,\"k\":2\x7d".toList⟩ := rfl

/-- Claim C9: whenever `next` returns a value the cursor strictly advances,
and consequently the driver emits at most `length(input)` values. -/
theorem parser_progress (fuel steps : Nat) (st : Input) (h : st.location ≤ st.input.length) :
    (∀ v st', next fuel st = .ok (some v) st' → st.location < st'.location)
    ∧ (drive fuel steps st).length ≤ st.input.length - st.location :=
  ⟨fun v st' he => next_some_strict fuel st v st' he, drive_length_le fuel steps st h⟩

theorem parser_progress_witness :
    (⟨0, "12 x".toList⟩ : Input).location ≤ (⟨0, "12 x".toList⟩ : Input).input.length ∧
    ((∀ v st', next 10 ⟨0, "12 x".toList⟩ = .ok (some v) st' → (0 : Nat) < st'.location)
     ∧ (drive 10 6 ⟨0, "12 x".toList⟩).length ≤ "12 x".toList.length - 0) :=
  ⟨by decide, parser_progress 10 6 ⟨0, "12 x".toList⟩ (by decide)⟩

/-- Claim C10: an object literal with a trailing comma before the closing
brace (with or without whitespace after the comma) parses successfully to the
same Object as the form without the trailing comma. -/
theorem trailing_comma_object_accepted :
    next 50 ⟨0, "\x7b\"k\":1,\x7d".toList⟩ =
      .ok (some (.JsonObject [("k", .JsonNumber 1)])) ⟨8, "\x7b\"k\":1,\x7d".toList⟩ ∧
    next 50 ⟨0, "\x7b\"k\":1, \x7d".toList⟩ =
      .ok (some (.JsonObject [("k", .JsonNumber 1)])) ⟨9, "\x7b\"k\":1, \x7d".toList⟩ ∧
    next 50 ⟨0, "\x7b\"k\":1\x7d".toList⟩ =
      .ok (some (.JsonObject [("k", .JsonNumber 1)])) ⟨7, "\x7b\"k\":1\x7d".toList⟩ :=
  ⟨rfl, rfl, rfl⟩
